import Mathlib

/-!
Shallow embedding of the `CustomDecisionTree` class from
`Utkarsha_Aryal_2407743_Decision_Tree_Scratch_and_scikit_Learn.ipynb`.

Feature values are modelled as `ℚ` (exact numeric values), labels as `ℕ`,
and the floating-point entropy/log computations as exact real arithmetic
with `Real.logb 2`.  Fallible numpy operations (fancy indexing with an
out-of-range index, `argmax` of an empty array) are modelled with
`Except`, and the unbounded recursion of `_build_tree` is modelled with
an explicit fuel parameter: `BuildErr.outOfFuel` means the recursion has
not terminated within the given fuel.
-/

namespace DecisionTree

/-- Model of `np.unique`: the distinct values of a list in ascending order. -/
def npUnique {α : Type} [LinearOrder α] [DecidableEq α] (l : List α) : List α :=
  List.insertionSort (· ≤ ·) l.dedup

/-- Maximum of a list of naturals (`0` for the empty list). -/
def maxList (l : List ℕ) : ℕ := l.foldl max 0

/-- Model of `np.bincount`: for a non-empty list of naturals, the list of
occurrence counts of `0, 1, ..., max`; `np.bincount` of an empty array is
the empty array. -/
def bincount (y : List ℕ) : List ℕ :=
  if y = [] then [] else (List.range (maxList y + 1)).map (fun k => y.count k)

/-- Model of `ndarray.argmax`: index of the first occurrence of the maximum. -/
def argmaxFirst (l : List ℕ) : ℕ := l.indexOf (l.foldl max 0)

/-- Errors raised by the numpy operations used in `_build_tree`, plus fuel
exhaustion of the embedded recursion. -/
inductive BuildErr : Type where
  | outOfFuel : BuildErr
  | valueError : BuildErr
  | indexError : BuildErr
deriving DecidableEq

/-- Model of `np.bincount(y).argmax()`: `np.bincount` of an empty array is
empty and `argmax` of an empty array raises `ValueError`. -/
def majorityLabel (y : List ℕ) : Except BuildErr ℕ :=
  if y = [] then .error .valueError else .ok (argmaxFirst (bincount y))

/-- Model of `_entropy`: `-np.sum(class_probs * np.log2(class_probs + 1e-9))`
where `class_probs = np.bincount(y) / len(y)`, in exact real arithmetic.
For empty `y`, `np.bincount` is empty, so the sum is `0`. -/
noncomputable def entropy (y : List ℕ) : ℝ :=
  -(((bincount y).map (fun c : ℕ =>
      ((c : ℝ) / (y.length : ℝ)) * Real.logb 2 ((c : ℝ) / (y.length : ℝ) + 1e-9))).sum)

/-- Model of `_information_gain`. -/
noncomputable def infoGain (parent left right : List ℕ) : ℝ :=
  entropy parent -
    (((left.length : ℝ) / (parent.length : ℝ)) * entropy left +
     ((right.length : ℝ) / (parent.length : ℝ)) * entropy right)

/-- A candidate split as recorded in the `best_split` dictionary. -/
structure Split : Type where
  feature_idx : ℕ
  threshold : ℚ
  left_y : List ℕ
  right_y : List ℕ
deriving DecidableEq

/-- Information gain of a candidate split against the parent labels `y`. -/
noncomputable def sgain (y : List ℕ) (s : Split) : ℝ := infoGain y s.left_y s.right_y

/-- Column `f` of the feature matrix (`X[:, f]`); rows are indexed with a
default of `0`, which is only exercised in range for rectangular input. -/
def column (X : List (List ℚ)) (f : ℕ) : List ℚ := X.map (fun row => row.getD f 0)

/-- Model of `X.shape[1]` for a list-of-rows matrix. -/
def numFeatures (X : List (List ℚ)) : ℕ := (X.headD []).length

/-- Model of `y[left_mask]` with `left_mask = X[:, f] <= t`. -/
def leftLabels (X : List (List ℚ)) (y : List ℕ) (f : ℕ) (t : ℚ) : List ℕ :=
  ((X.zip y).filter (fun p => p.1.getD f 0 ≤ t)).map Prod.snd

/-- Model of `y[right_mask]` with `right_mask = ~left_mask`. -/
def rightLabels (X : List (List ℚ)) (y : List ℕ) (f : ℕ) (t : ℚ) : List ℕ :=
  ((X.zip y).filter (fun p => ¬ (p.1.getD f 0 ≤ t))).map Prod.snd

/-- The candidate splits of one feature, in the order of the inner loop of
`_build_tree` (thresholds ascending, since `np.unique` sorts). -/
def featureCandidates (X : List (List ℚ)) (y : List ℕ) (f : ℕ) : List Split :=
  (npUnique (column X f)).map (fun t => ⟨f, t, leftLabels X y f t, rightLabels X y f t⟩)

/-- All candidate splits in the order of the double loop of `_build_tree`
(feature indices ascending, thresholds ascending within a feature). -/
def candidates (X : List (List ℚ)) (y : List ℕ) : List Split :=
  (List.range (numFeatures X)).flatMap (featureCandidates X y)

/-- One iteration of the best-split tracking: the accumulator is `none`
while `best_split is None` and `best_info_gain = -inf` (every real gain
beats `-inf`), and the update fires exactly on `info_gain > best_info_gain`. -/
noncomputable def pickStep (y : List ℕ) (acc : Option Split) (c : Split) : Option Split :=
  match acc with
  | none => some c
  | some b => if sgain y c > sgain y b then some c else some b

/-- The best-split search loop of `_build_tree` over a candidate list. -/
noncomputable def pickBest (y : List ℕ) (cs : List Split) : Option Split :=
  cs.foldl (pickStep y) none

/-- The `best_split` chosen by the double loop of `_build_tree`. -/
noncomputable def bestSplit (X : List (List ℚ)) (y : List ℕ) : Option Split :=
  pickBest y (candidates X y)

/-- The tree node dictionaries of the source: `{'class': v}` or
`{'feature_idx': f, 'threshold': t, 'left_tree': l, 'right_tree': r}`. -/
inductive Node : Type where
  | leaf (label : ℕ) : Node
  | node (feature_idx : ℕ) (threshold : ℚ) (left right : Node) : Node
deriving DecidableEq

/-- Model of numpy integer fancy indexing `X[idx]`: row `j` of the result is
row `idx[j]` of `X`; an out-of-range index raises `IndexError`. -/
def selectRows (X : List (List ℚ)) (idx : List ℕ) : Except BuildErr (List (List ℚ)) :=
  if idx.all (fun i => i < X.length) then .ok (idx.map (fun i => X.getD i [])) else
    .error .indexError

/-- Model of the Python condition `self.max_depth and depth >= self.max_depth`:
`None` and `0` are falsy, so the depth cap is only active for a positive
`max_depth`. -/
def maxDepthTrig (md : Option ℕ) (depth : ℕ) : Bool :=
  match md with
  | none => false
  | some d => if d = 0 then false else decide (depth ≥ d)

/-- Model of `_build_tree`, with explicit fuel for the unbounded recursion.
The recursive calls receive `X[best_split['left_y']]` / `X[best_split['right_y']]`,
i.e. `X` fancy-indexed by the *label* arrays, exactly as in the source. -/
noncomputable def buildTree : ℕ → Option ℕ → List (List ℚ) → List ℕ → ℕ →
    Except BuildErr Node
  | 0, _, _, _, _ => .error .outOfFuel
  | fuel + 1, md, X, y, depth =>
    if (npUnique y).length = 1 then .ok (.leaf ((npUnique y).headD 0))
    else if X.length = 0 ∨ maxDepthTrig md depth = true then
      (majorityLabel y).map .leaf
    else
      match bestSplit X y with
      | none => (majorityLabel y).map .leaf
      | some s =>
        match selectRows X s.left_y with
        | .error e => .error e
        | .ok lX =>
          match buildTree fuel md lX s.left_y (depth + 1) with
          | .error e => .error e
          | .ok lT =>
            match selectRows X s.right_y with
            | .error e => .error e
            | .ok rX =>
              match buildTree fuel md rX s.right_y (depth + 1) with
              | .error e => .error e
              | .ok rT => .ok (.node s.feature_idx s.threshold lT rT)

/-- The engine instance: `max_depth` from `__init__`, `tree` set by `fit`. -/
structure CustomDecisionTree : Type where
  max_depth : Option ℕ
  tree : Option Node

/-- Model of `CustomDecisionTree(max_depth)`: `self.tree = None`. -/
def initTree (md : Option ℕ) : CustomDecisionTree := ⟨md, none⟩

/-- Model of `fit`: `self.tree = self._build_tree(X, y)` (depth defaults to 0). -/
noncomputable def fit (m : CustomDecisionTree) (fuel : ℕ) (X : List (List ℚ))
    (y : List ℕ) : Except BuildErr CustomDecisionTree :=
  (buildTree fuel m.max_depth X y 0).map (fun t => ⟨m.max_depth, some t⟩)

/-- The runtime fault raised by `'class' in tree` when `tree` is `None`:
`TypeError: argument of type 'NoneType' is not iterable`. -/
inductive PredictErr : Type where
  | noneTypeNotIterable : PredictErr
deriving DecidableEq

/-- Model of `_predict_single` on an actual tree node dictionary. -/
def predictSingle (t : Node) (x : List ℚ) : ℕ :=
  match t with
  | .leaf v => v
  | .node f thr l r => if x.getD f 0 ≤ thr then predictSingle l x else predictSingle r x

/-- Model of `_predict_single(x, self.tree)`: when `self.tree` is `None`, the
membership test `'class' in tree` raises `TypeError`. -/
def predictSingleOpt (t : Option Node) (x : List ℚ) : Except PredictErr ℕ :=
  match t with
  | none => .error .noneTypeNotIterable
  | some n => .ok (predictSingle n x)

/-- Model of the list comprehension in `predict`: labels in row order, the
first raised error propagating. -/
def predictList (t : Option Node) (X : List (List ℚ)) : Except PredictErr (List ℕ) :=
  match X with
  | [] => .ok []
  | x :: xs =>
    match predictSingleOpt t x with
    | .error e => .error e
    | .ok v => (predictList t xs).map (fun vs => v :: vs)

/-- Model of `predict`. -/
def predict (m : CustomDecisionTree) (X : List (List ℚ)) : Except PredictErr (List ℕ) :=
  predictList m.tree X

/-- Mask-based partitioning of the feature matrix, the typical decision-tree
semantics of keeping the rows whose feature-`f` value is `≤ t`.  The spec
contrasts the source's label-array indexing with this definition. -/
def maskFilteredX (X : List (List ℚ)) (f : ℕ) (t : ℚ) : List (List ℚ) :=
  X.filter (fun row => row.getD f 0 ≤ t)

/-! ### Basic helper lemmas -/

lemma foldl_max_init_le (l : List ℕ) : ∀ acc : ℕ, acc ≤ l.foldl max acc := by
  induction l with
  | nil => intro acc; exact le_refl acc
  | cons x l ih =>
    intro acc
    exact le_trans (le_max_left acc x) (ih (max acc x))

lemma le_foldl_max (l : List ℕ) : ∀ (acc a : ℕ), a ∈ l → a ≤ l.foldl max acc := by
  induction l with
  | nil => intro _ _ h; cases h
  | cons x l ih =>
    intro acc a h
    rcases List.mem_cons.mp h with h | h
    · subst h
      exact le_trans (le_max_right acc a) (foldl_max_init_le l (max acc a))
    · exact ih (max acc x) a h

lemma le_maxList {l : List ℕ} {a : ℕ} (h : a ∈ l) : a ≤ maxList l :=
  le_foldl_max l 0 a h

lemma foldl_max_le {b : ℕ} : ∀ (l : List ℕ) (acc : ℕ), (∀ x ∈ l, x ≤ b) →
    acc ≤ b → l.foldl max acc ≤ b := by
  intro l
  induction l with
  | nil => intro acc _ hacc; exact hacc
  | cons x l ih =>
    intro acc hall hacc
    exact ih (max acc x) (fun a ha => hall a (List.mem_cons_of_mem x ha))
      (max_le hacc (hall x (List.mem_cons_self x l)))

lemma maxList_allEq {l : List ℕ} {v : ℕ} (hne : l ≠ []) (hall : ∀ x ∈ l, x = v) :
    maxList l = v := by
  have hv : v ∈ l := by
    cases l with
    | nil => exact absurd rfl hne
    | cons x l => exact (hall x (List.mem_cons_self x l)) ▸ List.mem_cons_self x l
  refine le_antisymm ?_ (le_maxList hv)
  exact foldl_max_le l 0 (fun x hx => le_of_eq (hall x hx)) (Nat.zero_le v)

lemma list_range_map_sum (n : ℕ) (g : ℕ → ℝ) :
    ((List.range n).map g).sum = ∑ i ∈ Finset.range n, g i := by
  induction n with
  | zero => simp
  | succ n ih =>
    rw [List.range_succ, List.map_append, List.sum_append, Finset.sum_range_succ, ih]
    simp

/-! ### Entropy lemmas -/

lemma entropy_nil : entropy [] = 0 := by simp [entropy, bincount]

lemma bincount_allEq {y : List ℕ} {v : ℕ} (hne : y ≠ []) (hall : ∀ x ∈ y, x = v) :
    bincount y = List.replicate v 0 ++ [y.length] := by
  unfold bincount
  rw [if_neg hne, maxList_allEq hne hall, List.range_succ, List.map_append]
  congr 1
  · rw [List.eq_replicate_iff]
    refine ⟨by simp, ?_⟩
    intro b hb
    rcases List.mem_map.mp hb with ⟨k, hk, rfl⟩
    have hkv : k ≠ v := Nat.ne_of_lt (List.mem_range.mp hk)
    exact List.count_eq_zero.mpr (fun hmem => hkv (hall k hmem))
  · simp [List.count_eq_length.mpr (fun b hb => (hall b hb).symm)]

lemma entropy_pure {y : List ℕ} {v : ℕ} (hne : y ≠ []) (hall : ∀ x ∈ y, x = v) :
    entropy y = -Real.logb 2 (1 + 1e-9) := by
  have hn : (y.length : ℝ) ≠ 0 := by
    exact_mod_cast Nat.pos_iff_ne_zero.mp (List.length_pos.mpr hne)
  unfold entropy
  rw [bincount_allEq hne hall, List.map_append, List.sum_append, List.map_replicate]
  simp [div_self hn]

lemma entropy_as_sum {y : List ℕ} (hne : y ≠ []) :
    entropy y = ∑ k ∈ Finset.range (maxList y + 1),
      -(((y.count k : ℝ) / (y.length : ℝ)) *
        Real.logb 2 ((y.count k : ℝ) / (y.length : ℝ) + 1e-9)) := by
  unfold entropy bincount
  rw [if_neg hne, List.map_map, list_range_map_sum, Finset.sum_neg_distrib]
  rfl

lemma entropy_pos {y : List ℕ} {a b : ℕ} (ha : a ∈ y) (hb : b ∈ y) (hab : a ≠ b)
    (hlen : y.length < 1000000000) : 0 < entropy y := by
  have hne : y ≠ [] := List.ne_nil_of_mem ha
  have hnR : (0:ℝ) < y.length := by exact_mod_cast List.length_pos.mpr hne
  have hcount_lt : ∀ k : ℕ, y.count k < y.length := by
    intro k
    rcases Nat.lt_or_ge (y.count k) y.length with h | h
    · exact h
    · exfalso
      have heq : y.count k = y.length := le_antisymm (List.count_le_length k y) h
      have hall := List.count_eq_length.mp heq
      exact hab ((hall a ha).symm.trans (hall b hb))
  have harg_pos : ∀ k : ℕ, (0:ℝ) < (y.count k : ℝ) / (y.length : ℝ) + 1e-9 := by
    intro k; positivity
  have harg_lt1 : ∀ k : ℕ, (y.count k : ℝ) / (y.length : ℝ) + 1e-9 < 1 := by
    intro k
    have h1 : (y.count k : ℝ) + 1 ≤ (y.length : ℝ) := by
      exact_mod_cast Nat.succ_le_of_lt (hcount_lt k)
    have h2 : (y.length : ℝ) < 1000000000 := by exact_mod_cast hlen
    rw [div_add' _ _ _ (ne_of_gt hnR), div_lt_one hnR]
    nlinarith
  have hterm_nonneg : ∀ k : ℕ, (0:ℝ) ≤
      -(((y.count k : ℝ) / (y.length : ℝ)) *
        Real.logb 2 ((y.count k : ℝ) / (y.length : ℝ) + 1e-9)) := by
    intro k
    rcases Nat.eq_zero_or_pos (y.count k) with h | h
    · simp [h]
    · have hp : (0:ℝ) < (y.count k : ℝ) / (y.length : ℝ) :=
        div_pos (by exact_mod_cast h) hnR
      have hlb : Real.logb 2 ((y.count k : ℝ) / (y.length : ℝ) + 1e-9) < 0 :=
        Real.logb_neg one_lt_two (harg_pos k) (harg_lt1 k)
      nlinarith
  rw [entropy_as_sum hne]
  apply Finset.sum_pos'
  · intro k _; exact hterm_nonneg k
  · refine ⟨a, Finset.mem_range.mpr (Nat.lt_succ_of_le (le_maxList ha)), ?_⟩
    have hca : 0 < y.count a := List.count_pos_iff.mpr ha
    have hp : (0:ℝ) < (y.count a : ℝ) / (y.length : ℝ) :=
      div_pos (by exact_mod_cast hca) hnR
    have hlb : Real.logb 2 ((y.count a : ℝ) / (y.length : ℝ) + 1e-9) < 0 :=
      Real.logb_neg one_lt_two (harg_pos a) (harg_lt1 a)
    nlinarith

/-- Information gain of the trivial split keeping all samples on the left. -/
lemma infoGain_self_nil {y : List ℕ} (hne : y ≠ []) : infoGain y y [] = 0 := by
  have hn : (y.length : ℝ) ≠ 0 := by
    exact_mod_cast Nat.pos_iff_ne_zero.mp (List.length_pos.mpr hne)
  unfold infoGain
  rw [entropy_nil]
  simp [div_self hn]

/-! ### Characterisation of the best-split tracking loop -/

/-- Reference recursion for the tracking loop: starting from current best `a`,
the final best over the remaining candidates. -/
noncomputable def firstMax (y : List ℕ) : Split → List Split → Split
  | a, [] => a
  | a, c :: cs => if sgain y c > sgain y a then firstMax y c cs else firstMax y a cs

lemma foldl_pickStep_some (y : List ℕ) :
    ∀ (cs : List Split) (a : Split),
      cs.foldl (pickStep y) (some a) = some (firstMax y a cs) := by
  intro cs
  induction cs with
  | nil => intro a; rfl
  | cons c cs ih =>
    intro a
    rw [List.foldl_cons]
    show List.foldl (pickStep y) (if sgain y c > sgain y a then some c else some a) cs = _
    by_cases h : sgain y c > sgain y a
    · rw [if_pos h, ih c]
      simp only [firstMax, if_pos h]
    · rw [if_neg h, ih a]
      simp only [firstMax, if_neg h]

lemma pickBest_nil (y : List ℕ) : pickBest y [] = none := rfl

lemma pickBest_cons (y : List ℕ) (c : Split) (cs : List Split) :
    pickBest y (c :: cs) = some (firstMax y c cs) := by
  unfold pickBest
  rw [List.foldl_cons]
  exact foldl_pickStep_some y cs c

lemma firstMax_ge (y : List ℕ) :
    ∀ (cs : List Split) (a : Split), sgain y a ≤ sgain y (firstMax y a cs) := by
  intro cs
  induction cs with
  | nil => intro a; exact le_refl _
  | cons c cs ih =>
    intro a
    by_cases h : sgain y c > sgain y a
    · simp only [firstMax, if_pos h]
      exact le_trans (le_of_lt h) (ih c)
    · simp only [firstMax, if_neg h]
      exact ih a

lemma firstMax_is_max (y : List ℕ) :
    ∀ (cs : List Split) (a c : Split), c ∈ a :: cs →
      sgain y c ≤ sgain y (firstMax y a cs) := by
  intro cs
  induction cs with
  | nil =>
    intro a c hc
    rcases List.mem_cons.mp hc with h | h
    · subst h; exact le_refl _
    · cases h
  | cons d cs ih =>
    intro a c hc
    by_cases h : sgain y d > sgain y a
    · simp only [firstMax, if_pos h]
      rcases List.mem_cons.mp hc with h1 | h1
      · subst h1
        exact le_trans (le_of_lt h) (firstMax_ge y cs d)
      · exact ih d c h1
    · simp only [firstMax, if_neg h]
      rcases List.mem_cons.mp hc with h1 | h1
      · subst h1; exact firstMax_ge y cs c
      · rcases List.mem_cons.mp h1 with h2 | h2
        · subst h2
          exact le_trans (not_lt.mp h) (firstMax_ge y cs a)
        · exact ih a c (List.mem_cons_of_mem a h2)

lemma firstMax_split (y : List ℕ) :
    ∀ (cs : List Split) (a : Split),
      ∃ pre suf, a :: cs = pre ++ firstMax y a cs :: suf ∧
        ∀ c ∈ pre, sgain y c < sgain y (firstMax y a cs) := by
  intro cs
  induction cs with
  | nil =>
    intro a
    exact ⟨[], [], rfl, by simp⟩
  | cons c cs ih =>
    intro a
    by_cases h : sgain y c > sgain y a
    · obtain ⟨pre, suf, heq, hlt⟩ := ih c
      refine ⟨a :: pre, suf, ?_, ?_⟩
      · simp only [firstMax, if_pos h]
        show a :: c :: cs = a :: (pre ++ firstMax y c cs :: suf)
        rw [← heq]
      · intro d hd
        simp only [firstMax, if_pos h]
        rcases List.mem_cons.mp hd with h1 | h1
        · subst h1
          exact lt_of_lt_of_le h (firstMax_ge y cs c)
        · exact hlt d h1
    · obtain ⟨pre, suf, heq, hlt⟩ := ih a
      cases pre with
      | nil =>
        have heq' : a :: cs = firstMax y a cs :: suf := by simpa using heq
        have ha : firstMax y a cs = a := by
          injection heq' with h1 _
          exact h1.symm
        refine ⟨[], c :: cs, ?_, by simp⟩
        simp only [firstMax, if_neg h, List.nil_append]
        rw [ha]
      | cons p pre' =>
        rw [List.cons_append] at heq
        injection heq with h1 h2
        refine ⟨a :: c :: pre', suf, ?_, ?_⟩
        · simp only [firstMax, if_neg h]
          show a :: c :: cs = a :: c :: (pre' ++ firstMax y a cs :: suf)
          rw [← h2]
        · intro d hd
          simp only [firstMax, if_neg h]
          have hastrict : sgain y a < sgain y (firstMax y a cs) := by
            have := hlt p (List.mem_cons_self p pre')
            rw [← h1] at this
            exact this
          rcases List.mem_cons.mp hd with h3 | h3
          · subst h3; exact hastrict
          · rcases List.mem_cons.mp h3 with h4 | h4
            · subst h4
              exact lt_of_le_of_lt (not_lt.mp h) hastrict
            · exact hlt d (List.mem_cons_of_mem p h4)

/-! ### Enumeration order of the candidate splits -/

/-- Strict lexicographic order on candidate splits: lower feature index first,
then lower threshold within a feature. -/
def splitLexLt (a b : Split) : Prop :=
  a.feature_idx < b.feature_idx ∨
    (a.feature_idx = b.feature_idx ∧ a.threshold < b.threshold)

lemma mem_npUnique {α : Type} [LinearOrder α] [DecidableEq α] {a : α} {l : List α} :
    a ∈ npUnique l ↔ a ∈ l := by
  unfold npUnique
  rw [(List.perm_insertionSort _ l.dedup).mem_iff, List.mem_dedup]

lemma npUnique_pairwise_lt {α : Type} [LinearOrder α] [DecidableEq α] (l : List α) :
    List.Pairwise (· < ·) (npUnique l) := by
  have hs : List.Sorted (· ≤ ·) (npUnique l) :=
    List.sorted_insertionSort _ l.dedup
  have hnd : (npUnique l).Nodup :=
    (List.perm_insertionSort _ l.dedup).nodup_iff.mpr l.nodup_dedup
  exact (hs.and hnd).imp (fun h => lt_of_le_of_ne h.1 h.2)

lemma feature_of_mem_featureCandidates {X : List (List ℚ)} {y : List ℕ} {f : ℕ}
    {s : Split} (h : s ∈ featureCandidates X y f) : s.feature_idx = f := by
  rcases List.mem_map.mp h with ⟨t, _, rfl⟩
  rfl

lemma featureCandidates_pairwise (X : List (List ℚ)) (y : List ℕ) (f : ℕ) :
    List.Pairwise splitLexLt (featureCandidates X y f) := by
  unfold featureCandidates
  refine List.Pairwise.map _ ?_ (npUnique_pairwise_lt (column X f))
  intro t t' h
  exact Or.inr ⟨rfl, h⟩

lemma flatMap_featureCandidates_pairwise (X : List (List ℚ)) (y : List ℕ) :
    ∀ lf : List ℕ, List.Pairwise (· < ·) lf →
      List.Pairwise splitLexLt (lf.flatMap (featureCandidates X y)) := by
  intro lf
  induction lf with
  | nil => intro _; simp
  | cons f lf ih =>
    intro hp
    rw [List.flatMap_cons]
    rw [List.pairwise_append]
    refine ⟨featureCandidates_pairwise X y f, ih (List.Pairwise.of_cons hp), ?_⟩
    intro a ha b hb
    rcases List.mem_flatMap.mp hb with ⟨f', hf', hb'⟩
    have hff' : f < f' := (List.pairwise_cons.mp hp).1 f' hf'
    left
    rw [feature_of_mem_featureCandidates ha, feature_of_mem_featureCandidates hb']
    exact hff'

lemma candidates_pairwise (X : List (List ℚ)) (y : List ℕ) :
    List.Pairwise splitLexLt (candidates X y) :=
  flatMap_featureCandidates_pairwise X y _ (List.pairwise_lt_range _)

/-! ### Concrete evaluations used by the example-based claims -/

lemma lb_one_eps_pos : 0 < Real.logb 2 (1 + 1e-9) :=
  Real.logb_pos one_lt_two (by norm_num)

lemma lb_half_neg : Real.logb 2 (1/2 + 1e-9) < 0 :=
  Real.logb_neg one_lt_two (by norm_num) (by norm_num)

lemma lb_third_neg : Real.logb 2 (1/3 + 1e-9) < 0 :=
  Real.logb_neg one_lt_two (by norm_num) (by norm_num)

lemma lb_twothird_neg : Real.logb 2 (2/3 + 1e-9) < 0 :=
  Real.logb_neg one_lt_two (by norm_num) (by norm_num)

lemma entropy_01 : entropy [0,1] = -Real.logb 2 (1/2 + 1e-9) := by
  have h : bincount [0,1] = [1,1] := by decide
  simp [entropy, h]
  norm_num
  ring

lemma entropy_10 : entropy [1,0] = -Real.logb 2 (1/2 + 1e-9) := by
  have h : bincount [1,0] = [1,1] := by decide
  simp [entropy, h]
  norm_num
  ring

lemma entropy_0011 : entropy [0,0,1,1] = -Real.logb 2 (1/2 + 1e-9) := by
  have h : bincount [0,0,1,1] = [2,2] := by decide
  simp [entropy, h]
  norm_num
  ring

lemma entropy_001 : entropy [0,0,1] =
    -((2/3) * Real.logb 2 (2/3 + 1e-9) + (1/3) * Real.logb 2 (1/3 + 1e-9)) := by
  have h : bincount [0,0,1] = [2,1] := by decide
  simp [entropy, h]

lemma entropy_011 : entropy [0,1,1] =
    -((2/3) * Real.logb 2 (2/3 + 1e-9) + (1/3) * Real.logb 2 (1/3 + 1e-9)) := by
  have h : bincount [0,1,1] = [1,2] := by decide
  simp [entropy, h]
  norm_num
  ring

lemma sgain_trivial {y : List ℕ} (f : ℕ) (t : ℚ) (hne : y ≠ []) :
    sgain y ⟨f, t, y, []⟩ = 0 :=
  infoGain_self_nil hne

lemma sgain_A1 : sgain [0,1] ⟨0, 1, [0], [1]⟩ =
    -Real.logb 2 (1/2 + 1e-9) + Real.logb 2 (1 + 1e-9) := by
  unfold sgain infoGain
  rw [show entropy [0] = -Real.logb 2 (1 + 1e-9) from
      @entropy_pure [0] 0 (by simp) (by simp),
    show entropy [1] = -Real.logb 2 (1 + 1e-9) from
      @entropy_pure [1] 1 (by simp) (by simp),
    entropy_01]
  norm_num
  ring

lemma sgain_B1 : sgain [1,0] ⟨0, 1, [1], [0]⟩ =
    -Real.logb 2 (1/2 + 1e-9) + Real.logb 2 (1 + 1e-9) := by
  unfold sgain infoGain
  rw [show entropy [0] = -Real.logb 2 (1 + 1e-9) from
      @entropy_pure [0] 0 (by simp) (by simp),
    show entropy [1] = -Real.logb 2 (1 + 1e-9) from
      @entropy_pure [1] 1 (by simp) (by simp),
    entropy_10]
  norm_num
  ring

lemma bestSplit_A : bestSplit [[1],[2]] [0,1] = some ⟨0, 1, [0], [1]⟩ := by
  have hc : candidates [[1],[2]] [0,1] = [⟨0,1,[0],[1]⟩, ⟨0,2,[0,1],[]⟩] := by decide
  have hng : ¬ (sgain [0,1] ⟨0,2,[0,1],[]⟩ > sgain [0,1] ⟨0,1,[0],[1]⟩) := by
    rw [sgain_trivial 0 2 (by simp), sgain_A1]
    have h1 := lb_one_eps_pos
    have h2 := lb_half_neg
    linarith
  unfold bestSplit
  rw [hc, pickBest_cons]
  simp only [firstMax, if_neg hng]

lemma bestSplit_B : bestSplit [[1],[2]] [1,0] = some ⟨0, 1, [1], [0]⟩ := by
  have hc : candidates [[1],[2]] [1,0] = [⟨0,1,[1],[0]⟩, ⟨0,2,[1,0],[]⟩] := by decide
  have hng : ¬ (sgain [1,0] ⟨0,2,[1,0],[]⟩ > sgain [1,0] ⟨0,1,[1],[0]⟩) := by
    rw [sgain_trivial 0 2 (by simp), sgain_B1]
    have h1 := lb_one_eps_pos
    have h2 := lb_half_neg
    linarith
  unfold bestSplit
  rw [hc, pickBest_cons]
  simp only [firstMax, if_neg hng]

lemma sgain_C1 : sgain [0,0,1,1] ⟨0, 1, [0], [0,1,1]⟩ =
    -Real.logb 2 (1/2 + 1e-9) + (1/4) * Real.logb 2 (1 + 1e-9) +
      (1/2) * Real.logb 2 (2/3 + 1e-9) + (1/4) * Real.logb 2 (1/3 + 1e-9) := by
  unfold sgain infoGain
  rw [show entropy [0] = -Real.logb 2 (1 + 1e-9) from
      @entropy_pure [0] 0 (by simp) (by simp),
    entropy_011, entropy_0011]
  norm_num
  ring

lemma sgain_C2 : sgain [0,0,1,1] ⟨0, 2, [0,0], [1,1]⟩ =
    -Real.logb 2 (1/2 + 1e-9) + Real.logb 2 (1 + 1e-9) := by
  unfold sgain infoGain
  rw [show entropy [0,0] = -Real.logb 2 (1 + 1e-9) from
      @entropy_pure [0,0] 0 (by simp) (by simp),
    show entropy [1,1] = -Real.logb 2 (1 + 1e-9) from
      @entropy_pure [1,1] 1 (by simp) (by simp),
    entropy_0011]
  norm_num
  ring

lemma sgain_C3 : sgain [0,0,1,1] ⟨0, 3, [0,0,1], [1]⟩ =
    -Real.logb 2 (1/2 + 1e-9) + (1/4) * Real.logb 2 (1 + 1e-9) +
      (1/2) * Real.logb 2 (2/3 + 1e-9) + (1/4) * Real.logb 2 (1/3 + 1e-9) := by
  unfold sgain infoGain
  rw [show entropy [1] = -Real.logb 2 (1 + 1e-9) from
      @entropy_pure [1] 1 (by simp) (by simp),
    entropy_001, entropy_0011]
  norm_num
  ring

lemma bestSplit_C : bestSplit [[1],[2],[3],[4]] [0,0,1,1] = some ⟨0, 2, [0,0], [1,1]⟩ := by
  have hc : candidates [[1],[2],[3],[4]] [0,0,1,1] =
      [⟨0,1,[0],[0,1,1]⟩, ⟨0,2,[0,0],[1,1]⟩, ⟨0,3,[0,0,1],[1]⟩, ⟨0,4,[0,0,1,1],[]⟩] := by
    decide
  have hL1 := lb_one_eps_pos
  have hL2 := lb_half_neg
  have hL3 := lb_third_neg
  have hL4 := lb_twothird_neg
  have h12 : sgain [0,0,1,1] ⟨0,2,[0,0],[1,1]⟩ > sgain [0,0,1,1] ⟨0,1,[0],[0,1,1]⟩ := by
    rw [sgain_C1, sgain_C2]
    linarith
  have h32 : ¬ (sgain [0,0,1,1] ⟨0,3,[0,0,1],[1]⟩ > sgain [0,0,1,1] ⟨0,2,[0,0],[1,1]⟩) := by
    rw [sgain_C3, sgain_C2]
    intro h
    linarith
  have h42 : ¬ (sgain [0,0,1,1] ⟨0,4,[0,0,1,1],[]⟩ > sgain [0,0,1,1] ⟨0,2,[0,0],[1,1]⟩) := by
    rw [sgain_trivial 0 4 (by simp), sgain_C2]
    intro h
    linarith
  unfold bestSplit
  rw [hc, pickBest_cons]
  simp only [firstMax, if_pos h12, if_neg h32, if_neg h42]

lemma bestSplit_D : bestSplit [[1],[1]] [0,1] = some ⟨0, 1, [0,1], []⟩ := rfl

lemma bestSplit_E : bestSplit (List.replicate 10 [(1:ℚ)]) [0,1,0,1,0,1,0,1,0,1] =
    some ⟨0, 1, [0,1,0,1,0,1,0,1,0,1], []⟩ := rfl

/-! ### Further helper lemmas for the claims -/

lemma maxDepthTrig_zero (depth : ℕ) : maxDepthTrig (some 0) depth = false := rfl

lemma maxDepthTrig_none (depth : ℕ) : maxDepthTrig none depth = false := rfl

lemma buildTree_maxdepth_zero (fuel : ℕ) :
    ∀ (X : List (List ℚ)) (y : List ℕ) (depth : ℕ),
      buildTree fuel (some 0) X y depth = buildTree fuel none X y depth := by
  induction fuel with
  | zero => intro X y depth; rfl
  | succ n ih =>
    intro X y depth
    simp only [buildTree, maxDepthTrig_zero, maxDepthTrig_none, ih]

lemma dedup_allEq {v : ℕ} : ∀ (y : List ℕ), y ≠ [] → (∀ x ∈ y, x = v) →
    y.dedup = [v] := by
  intro y
  induction y with
  | nil => intro h; exact absurd rfl h
  | cons x l ih =>
    intro _ hall
    have hx : x = v := hall x (List.mem_cons_self x l)
    by_cases hl : l = []
    · subst hl hx
      simp
    · have hd : l.dedup = [v] := ih hl (fun a ha => hall a (List.mem_cons_of_mem x ha))
      have hxl : x ∈ l := by
        cases l with
        | nil => exact absurd rfl hl
        | cons z l' =>
          have hz : z = v := hall z (List.mem_cons_of_mem x (List.mem_cons_self z l'))
          rw [hx, ← hz]
          exact List.mem_cons_self z l'
      rw [List.dedup_cons_of_mem hxl, hd]

lemma npUnique_allEq {y : List ℕ} {v : ℕ} (hne : y ≠ []) (hall : ∀ x ∈ y, x = v) :
    npUnique y = [v] := by
  unfold npUnique
  rw [dedup_allEq y hne hall]
  rfl

lemma predictList_leaf (v : ℕ) : ∀ X' : List (List ℚ),
    predictList (some (.leaf v)) X' = .ok (X'.map (fun _ => v)) := by
  intro X'
  induction X' with
  | nil => rfl
  | cons x xs ih =>
    simp only [predictList, predictSingleOpt, predictSingle, ih, List.map_cons]
    rfl

lemma firstMax_append (y : List ℕ) :
    ∀ (l l' : List Split) (a : Split),
      firstMax y a (l ++ l') = firstMax y (firstMax y a l) l' := by
  intro l
  induction l with
  | nil => intro l' a; rfl
  | cons c l ih =>
    intro l' a
    rw [List.cons_append]
    by_cases h : sgain y c > sgain y a
    · simp only [firstMax, if_pos h, ih]
    · simp only [firstMax, if_neg h, ih]

lemma firstMax_mem (y : List ℕ) :
    ∀ (cs : List Split) (a : Split), firstMax y a cs ∈ a :: cs := by
  intro cs
  induction cs with
  | nil => intro a; exact List.mem_cons_self a []
  | cons c cs ih =>
    intro a
    by_cases h : sgain y c > sgain y a
    · simp only [firstMax, if_pos h]
      exact List.mem_cons_of_mem a (ih c)
    · simp only [firstMax, if_neg h]
      rcases List.mem_cons.mp (ih a) with h1 | h1
      · rw [h1]; exact List.mem_cons_self a (c :: cs)
      · exact List.mem_cons_of_mem a (List.mem_cons_of_mem c h1)

lemma exists_max_mem : ∀ (l : List ℚ), l ≠ [] → ∃ m ∈ l, ∀ v ∈ l, v ≤ m := by
  intro l
  induction l with
  | nil => intro h; exact absurd rfl h
  | cons x l ih =>
    intro _
    by_cases hl : l = []
    · subst hl
      refine ⟨x, List.mem_cons_self x [], ?_⟩
      intro v hv
      rcases List.mem_cons.mp hv with h | h
      · exact le_of_eq h
      · cases h
    · obtain ⟨m, hm, hmax⟩ := ih hl
      rcases le_total x m with h | h
      · refine ⟨m, List.mem_cons_of_mem x hm, ?_⟩
        intro v hv
        rcases List.mem_cons.mp hv with h1 | h1
        · exact h1 ▸ h
        · exact hmax v h1
      · refine ⟨x, List.mem_cons_self x l, ?_⟩
        intro v hv
        rcases List.mem_cons.mp hv with h1 | h1
        · exact le_of_eq h1
        · exact le_trans (hmax v h1) h

lemma lb_half_eq : Real.logb 2 (1/2 + 1e-9) = Real.logb 2 (1 + 2e-9) - 1 := by
  have h1 : (1/2 + 1e-9 : ℝ) = (1 + 2e-9)/2 := by norm_num
  rw [h1, Real.logb_div (by norm_num) (by norm_num),
    Real.logb_self_eq_one one_lt_two]

/-! ### Claim C1 -/

/-- C1, counterexample: with `max_depth = 0` on `X = [[1],[2]]`, `y = [0,1]`,
`fit` does not produce a single Leaf with the majority label `0`; it builds an
Internal node, because `max_depth = 0` is falsy in the Python condition
`self.max_depth and depth >= self.max_depth`. -/
theorem C1_counterexample :
    fit (initTree (some 0)) 2 [[1],[2]] [0,1] =
      .ok ⟨some 0, some (.node 0 1 (.leaf 0) (.leaf 1))⟩ ∧
    fit (initTree (some 0)) 2 [[1],[2]] [0,1] ≠ .ok ⟨some 0, some (.leaf 0)⟩ := by
  have h : buildTree 2 (some 0) [[1],[2]] [0,1] 0 =
      .ok (.node 0 1 (.leaf 0) (.leaf 1)) := by
    show buildTree (1 + 1) (some 0) [[1],[2]] [0,1] 0 = _
    simp only [buildTree]
    rw [if_neg (by decide), if_neg (by decide), bestSplit_A]
    rfl
  have hfit : fit (initTree (some 0)) 2 [[1],[2]] [0,1] =
      .ok ⟨some 0, some (.node 0 1 (.leaf 0) (.leaf 1))⟩ := by
    unfold fit initTree
    rw [h]
    rfl
  refine ⟨hfit, ?_⟩
  rw [hfit]
  intro hcon
  injection hcon with h1
  injection h1 with h2 h3
  injection h3 with h4
  cases h4

/-- C1, amended: `max_depth = 0` is falsy in the source condition
`self.max_depth and depth >= self.max_depth`, so a tree constructed with
`max_depth = 0` is built exactly as if `max_depth` were unset (`None`); the
result is a single majority-label Leaf only when the unlimited-depth build
already produces one. -/
theorem C1_maxdepth_zero_behaves_as_none (fuel : ℕ) (X : List (List ℚ))
    (y : List ℕ) (depth : ℕ) :
    buildTree fuel (some 0) X y depth = buildTree fuel none X y depth :=
  buildTree_maxdepth_zero fuel X y depth

/-! ### Claim C2 -/

/-- C2: whenever `_build_tree` reaches the recursion after selecting a best
split, the sub-matrix given to each recursive call is `X` fancy-indexed by the
label partition array (`X[best_split['left_y']]` / `X[best_split['right_y']]`),
not `X` filtered by the boolean feature mask; on `X = [[1],[2]]`, `y = [1,0]`
the two disagree: label-indexing yields `[[2]]` while the mask keeps `[[1]]`. -/
theorem C2_recursion_indexes_X_by_labels :
    (∀ (fuel : ℕ) (md : Option ℕ) (X : List (List ℚ)) (y : List ℕ) (depth : ℕ)
        (s : Split),
      (npUnique y).length ≠ 1 →
      X.length ≠ 0 →
      maxDepthTrig md depth = false →
      bestSplit X y = some s →
      buildTree (fuel + 1) md X y depth =
        (match selectRows X s.left_y with
         | .error e => .error e
         | .ok lX =>
           match buildTree fuel md lX s.left_y (depth + 1) with
           | .error e => .error e
           | .ok lT =>
             match selectRows X s.right_y with
             | .error e => .error e
             | .ok rX =>
               match buildTree fuel md rX s.right_y (depth + 1) with
               | .error e => .error e
               | .ok rT => .ok (.node s.feature_idx s.threshold lT rT))) ∧
    (bestSplit [[1],[2]] [1,0] = some ⟨0, 1, [1], [0]⟩ ∧
     selectRows [[1],[2]] [1] = .ok [[2]] ∧
     maskFilteredX [[1],[2]] 0 1 = [[1]] ∧
     ([[2]] : List (List ℚ)) ≠ [[1]]) := by
  constructor
  · intro fuel md X y depth s h1 h2 h3 hbs
    simp only [buildTree]
    rw [if_neg h1, if_neg (by simp [h2, h3]), hbs]
  · exact ⟨bestSplit_B, rfl, by decide, by decide⟩

/-- C2, witness: the recursion equation instantiated on `X = [[1],[2]]`,
`y = [1,0]` with its best split. -/
theorem C2_witness :
    buildTree 2 none [[1],[2]] [1,0] 0 =
      (match selectRows [[1],[2]] ((⟨0, 1, [1], [0]⟩ : Split)).left_y with
       | .error e => .error e
       | .ok lX =>
         match buildTree 1 none lX ((⟨0, 1, [1], [0]⟩ : Split)).left_y 1 with
         | .error e => .error e
         | .ok lT =>
           match selectRows [[1],[2]] ((⟨0, 1, [1], [0]⟩ : Split)).right_y with
           | .error e => .error e
           | .ok rX =>
             match buildTree 1 none rX ((⟨0, 1, [1], [0]⟩ : Split)).right_y 1 with
             | .error e => .error e
             | .ok rT => .ok (.node 0 1 lT rT)) :=
  C2_recursion_indexes_X_by_labels.1 1 none [[1],[2]] [1,0] 0 ⟨0, 1, [1], [0]⟩
    (by decide) (by decide) rfl bestSplit_B

/-! ### Claim C3 -/

/-- C3: on a training set whose labels are all equal to `v`, `_build_tree`
returns the single Leaf `v` (for any `max_depth` and any feature matrix), and
`predict` on the resulting tree maps every row of any input to `v`. -/
theorem C3_pure_labels_leaf (md : Option ℕ) (fuel : ℕ) (X : List (List ℚ))
    (y : List ℕ) (v : ℕ) (hne : y ≠ []) (hall : ∀ l ∈ y, l = v) :
    fit (initTree md) (fuel + 1) X y = .ok ⟨md, some (.leaf v)⟩ ∧
    ∀ X' : List (List ℚ),
      predict ⟨md, some (.leaf v)⟩ X' = .ok (X'.map (fun _ => v)) := by
  constructor
  · have hb : buildTree (fuel + 1) md X y 0 = .ok (.leaf v) := by
      have hu : npUnique y = [v] := npUnique_allEq hne hall
      simp only [buildTree, hu]
      rfl
    unfold fit initTree
    rw [hb]
    rfl
  · intro X'
    exact predictList_leaf v X'

/-- C3, witness: instantiated on `X = [[1],[2]]`, `y = [5,5]`, predicting
on `[[9]]`. -/
theorem C3_witness :
    fit (initTree none) 1 [[1],[2]] [5,5] = .ok ⟨none, some (.leaf 5)⟩ ∧
    predict ⟨none, some (.leaf 5)⟩ [[9]] = .ok [5] := by
  obtain ⟨h1, h2⟩ := C3_pure_labels_leaf none 0 [[1],[2]] [5,5] 5 (by simp) (by decide)
  exact ⟨h1, h2 [[9]]⟩

/-! ### Claim C4 -/

/-- C4, counterexample: `_entropy` of the pure label vector `[0,0]` is not 0:
the `1e-9` inside the logarithm makes it `-log2(1 + 1e-9) < 0`. -/
theorem C4_counterexample : entropy [0,0] ≠ 0 := by
  rw [@entropy_pure [0,0] 0 (by simp) (by simp)]
  have := lb_one_eps_pos
  intro h
  linarith

/-- C4, amended: for every non-empty all-equal label vector, `_entropy`
returns exactly `-log2(1 + 1e-9)`, a strictly negative value (≈ -1.44e-9)
rather than 0; and for every label vector containing two distinct labels
(hence each with nonzero frequency) of length below `10^9`, `_entropy` is
strictly positive (the bound is forced by the `1e-9` additive constant). -/
theorem C4_entropy_signs :
    (∀ (y : List ℕ) (v : ℕ), y ≠ [] → (∀ x ∈ y, x = v) →
      entropy y = -Real.logb 2 (1 + 1e-9) ∧ entropy y < 0) ∧
    (∀ (y : List ℕ) (a b : ℕ), a ∈ y → b ∈ y → a ≠ b → y.length < 1000000000 →
      0 < entropy y) := by
  constructor
  · intro y v hne hall
    refine ⟨entropy_pure hne hall, ?_⟩
    rw [entropy_pure hne hall]
    have := lb_one_eps_pos
    linarith
  · intro y a b ha hb hab hlen
    exact entropy_pos ha hb hab hlen

/-- C4, witness: the amended statement evaluated on `[3,3]` and `[0,1]`. -/
theorem C4_witness :
    entropy [3,3] = -Real.logb 2 (1 + 1e-9) ∧ 0 < entropy [0,1] :=
  ⟨(C4_entropy_signs.1 [3,3] 3 (by simp) (by simp)).1,
   C4_entropy_signs.2 [0,1] 0 1 (by simp) (by simp) (by decide) (by decide)⟩

/-! ### Claim C5 -/

/-- C5: the recorded best split is the first candidate, in enumeration order,
whose gain is maximal: every earlier candidate has strictly smaller gain and
every later candidate has gain at most the winner's; and the candidate list is
strictly increasing in (feature index, threshold) lexicographic order
(features ascending from `range`, thresholds ascending from `np.unique`), so
gain ties are won by the lowest feature index, then the lowest threshold. -/
theorem C5_best_split_first_max (X : List (List ℚ)) (y : List ℕ) (s : Split)
    (hs : bestSplit X y = some s) :
    (∃ pre suf, candidates X y = pre ++ s :: suf ∧
      (∀ c ∈ pre, sgain y c < sgain y s) ∧
      (∀ c ∈ suf, sgain y c ≤ sgain y s)) ∧
    List.Pairwise splitLexLt (candidates X y) := by
  refine ⟨?_, candidates_pairwise X y⟩
  cases hc : candidates X y with
  | nil =>
    unfold bestSplit at hs
    rw [hc, pickBest_nil] at hs
    cases hs
  | cons c cs =>
    unfold bestSplit at hs
    rw [hc, pickBest_cons] at hs
    injection hs with hs'
    subst hs'
    obtain ⟨pre, suf, heq, hlt⟩ := firstMax_split y cs c
    refine ⟨pre, suf, by rw [heq], hlt, ?_⟩
    intro d hd
    apply firstMax_is_max y cs c
    rw [heq]
    exact List.mem_append_right pre (List.mem_cons_of_mem _ hd)

/-- C5, witness: the first-max characterisation on `X = [[1],[1]]`,
`y = [0,1]`, whose single candidate has an empty right partition. -/
theorem C5_witness :
    (∃ pre suf, candidates [[1],[1]] [0,1] =
        pre ++ (⟨0, 1, [0,1], []⟩ : Split) :: suf ∧
      (∀ c ∈ pre, sgain [0,1] c < sgain [0,1] (⟨0, 1, [0,1], []⟩ : Split)) ∧
      (∀ c ∈ suf, sgain [0,1] c ≤ sgain [0,1] (⟨0, 1, [0,1], []⟩ : Split))) ∧
    List.Pairwise splitLexLt (candidates [[1],[1]] [0,1]) :=
  C5_best_split_first_max [[1],[1]] [0,1] ⟨0, 1, [0,1], []⟩ bestSplit_D

/-! ### Claim C6 -/

/-- C6: calling `predict` on a freshly constructed engine (before any `fit`)
with a non-empty input does not fail with a well-typed explicit error: it
runs `'class' in None` inside `_predict_single`, i.e. the runtime fault
`TypeError: argument of type 'NoneType' is not iterable` from traversing the
null tree. -/
theorem C6_predict_before_fit :
    predict (initTree none) [[0]] = .error .noneTypeNotIterable ∧
    predict (initTree (some 3)) [[0]] = .error .noneTypeNotIterable :=
  ⟨rfl, rfl⟩

/-! ### Claim C7 -/

/-- C7: the tracked best gain of the split-search loop is non-decreasing as
more candidates are examined (extending the candidate list never lowers the
recorded best gain), and the finally selected best split has non-negative
gain, because the trivial split at the maximal threshold of feature 0 (whole
sample left, empty right) has gain exactly 0. -/
theorem C7_best_gain_monotone_nonneg (X : List (List ℚ)) (y : List ℕ)
    (hX : X ≠ []) (hm : 1 ≤ numFeatures X) (hlen : y.length = X.length) :
    (∀ (b : Split) (cs ds : List Split), pickBest y cs = some b →
      ∃ b', pickBest y (cs ++ ds) = some b' ∧ sgain y b ≤ sgain y b') ∧
    (∃ s, bestSplit X y = some s ∧ 0 ≤ sgain y s) := by
  have hyne : y ≠ [] := by
    intro h
    rw [h] at hlen
    exact hX (List.eq_nil_of_length_eq_zero hlen.symm)
  constructor
  · intro b cs ds hb
    cases cs with
    | nil => rw [pickBest_nil] at hb; cases hb
    | cons c cs' =>
      rw [pickBest_cons] at hb
      injection hb with hb'
      refine ⟨firstMax y c (cs' ++ ds), ?_, ?_⟩
      · rw [List.cons_append, pickBest_cons]
      · rw [← hb', firstMax_append]
        exact firstMax_ge y ds (firstMax y c cs')
  · have hcol : column X 0 ≠ [] := by
      unfold column
      simpa using hX
    obtain ⟨t, htmem, htmax⟩ := exists_max_mem (column X 0) hcol
    have hleft : leftLabels X y 0 t = y := by
      unfold leftLabels
      have hfil : (X.zip y).filter (fun p => decide (p.1.getD 0 0 ≤ t)) = X.zip y := by
        rw [List.filter_eq_self]
        intro p hp
        have hp1 : p.1 ∈ X := (List.of_mem_zip (a := p.1) (b := p.2) (by simpa using hp)).1
        exact decide_eq_true (htmax _ (List.mem_map_of_mem (fun row => row.getD 0 0) hp1))
      rw [hfil]
      exact List.map_snd_zip X y (le_of_eq hlen)
    have hright : rightLabels X y 0 t = [] := by
      unfold rightLabels
      rw [List.filter_eq_nil_iff.mpr, List.map_nil]
      intro p hp
      have hp1 : p.1 ∈ X := (List.of_mem_zip (a := p.1) (b := p.2) (by simpa using hp)).1
      have hle := htmax _ (List.mem_map_of_mem (fun row => row.getD 0 0) hp1)
      simpa using hle
    have hmem : (⟨0, t, leftLabels X y 0 t, rightLabels X y 0 t⟩ : Split) ∈
        candidates X y := by
      unfold candidates
      rw [List.mem_flatMap]
      refine ⟨0, List.mem_range.mpr hm, ?_⟩
      unfold featureCandidates
      exact List.mem_map_of_mem _ (mem_npUnique.mpr htmem)
    have hgain0 : sgain y (⟨0, t, leftLabels X y 0 t, rightLabels X y 0 t⟩ : Split) = 0 := by
      rw [hleft, hright]
      exact sgain_trivial 0 t hyne
    cases hcand : candidates X y with
    | nil =>
      rw [hcand] at hmem
      cases hmem
    | cons c cs =>
      refine ⟨firstMax y c cs, by unfold bestSplit; rw [hcand, pickBest_cons], ?_⟩
      rw [← hgain0]
      apply firstMax_is_max y cs c
      rw [← hcand]
      exact hmem

/-- C7, witness: the selected best split on `X = [[1],[1]]`, `y = [0,1]` has
non-negative gain. -/
theorem C7_witness : 0 ≤ sgain [0,1] (⟨0, 1, [0,1], []⟩ : Split) := by
  obtain ⟨-, s, hs, hg⟩ :=
    C7_best_gain_monotone_nonneg [[1],[1]] [0,1] (by decide) (by decide) (by decide)
  have h := hs.symm.trans bestSplit_D
  rw [Option.some.injEq] at h
  rw [← h]
  exact hg

/-! ### Claim C8 -/

/-- C8, counterexample: on `X = [[1],[2],[3],[4]]`, `y = [0,0,1,1]` the
builder does select feature 0 with threshold 2, but the gain of that split is
not `1.0`: the `1e-9` constant inside the logarithm makes it
`1 - log2(1 + 2e-9) + log2(1 + 1e-9) ≠ 1`. -/
theorem C8_counterexample :
    bestSplit [[1],[2],[3],[4]] [0,0,1,1] = some ⟨0, 2, [0,0], [1,1]⟩ ∧
    sgain [0,0,1,1] ⟨0, 2, [0,0], [1,1]⟩ ≠ 1 := by
  refine ⟨bestSplit_C, ?_⟩
  rw [sgain_C2, lb_half_eq]
  have hlt : Real.logb 2 (1 + 1e-9) < Real.logb 2 (1 + 2e-9) :=
    Real.logb_lt_logb one_lt_two (by norm_num) (by norm_num)
  intro h
  linarith

/-- C8, amended: on `X = [[1],[2],[3],[4]]`, `y = [0,0,1,1]`, `max_depth = 1`,
`fit` builds the Internal root with feature index 0 and threshold 2 — the
fully separating split, whose gain is `1 - log2(1 + 2e-9) + log2(1 + 1e-9)`
(≈ 1.0, but not exactly 1.0) — with left child `Leaf 0` and right child
`Leaf 1`, and `predict` on `[[1],[2],[3],[4]]` returns `[0,0,1,1]`. -/
theorem C8_round_trip :
    fit (initTree (some 1)) 2 [[1],[2],[3],[4]] [0,0,1,1] =
      .ok ⟨some 1, some (.node 0 2 (.leaf 0) (.leaf 1))⟩ ∧
    sgain [0,0,1,1] ⟨0, 2, [0,0], [1,1]⟩ =
      1 - Real.logb 2 (1 + 2e-9) + Real.logb 2 (1 + 1e-9) ∧
    predict ⟨some 1, some (.node 0 2 (.leaf 0) (.leaf 1))⟩ [[1],[2],[3],[4]] =
      .ok [0,0,1,1] := by
  refine ⟨?_, ?_, rfl⟩
  · have h : buildTree 2 (some 1) [[1],[2],[3],[4]] [0,0,1,1] 0 =
        .ok (.node 0 2 (.leaf 0) (.leaf 1)) := by
      show buildTree (1 + 1) (some 1) [[1],[2],[3],[4]] [0,0,1,1] 0 = _
      simp only [buildTree]
      rw [if_neg (by decide), if_neg (by decide), bestSplit_C]
      rfl
    unfold fit initTree
    rw [h]
    rfl
  · rw [sgain_C2, lb_half_eq]
    ring

/-! ### Claim C9 -/

/-- C9: on ten identical single-feature rows with two alternating labels and
`max_depth = None`, `_build_tree` does not terminate: the only candidate
split keeps the whole sample on the left with gain 0, which replaces the
initial `-inf`, and the left recursive call receives
`X[left_y] = X[[0,1,0,1,...]]` (again ten identical rows) together with the
unchanged label vector, so the recursion re-enters the same state forever;
for every amount of fuel the embedded recursion runs out of fuel. -/
theorem C9_constant_features_diverges :
    ∀ (fuel depth : ℕ),
      buildTree fuel none (List.replicate 10 [(1:ℚ)]) [0,1,0,1,0,1,0,1,0,1] depth =
        .error .outOfFuel := by
  intro fuel
  induction fuel with
  | zero => intro depth; rfl
  | succ n ih =>
    intro depth
    have hsel : selectRows (List.replicate 10 [(1:ℚ)]) [0,1,0,1,0,1,0,1,0,1] =
        .ok (List.replicate 10 [(1:ℚ)]) := rfl
    simp only [buildTree]
    rw [if_neg (by decide), if_neg (by simp [maxDepthTrig])]
    simp only [bestSplit_E, hsel, ih]

/-! ### Claim C10 -/

/-- C10, counterexample: a recorded best split can have an empty right
partition: on two identical rows `[[1],[1]]` with labels `[0,1]` the only
candidate (threshold 1) keeps everything on the left, its gain is 0 — not
NaN, since the entropy of the empty partition evaluates to 0 — and 0 beats
the initial `-inf`, so it is recorded as `best_split` with `right_y = []`. -/
theorem C10_counterexample :
    bestSplit [[1],[1]] [0,1] = some ⟨0, 1, [0,1], []⟩ ∧
    (⟨0, 1, [0,1], []⟩ : Split).right_y = [] ∧
    sgain [0,1] ⟨0, 1, [0,1], []⟩ = 0 :=
  ⟨bestSplit_D, rfl, sgain_trivial 0 1 (by simp)⟩

/-- C10, amended: every recorded best split has a non-empty left partition
(each candidate threshold is a value present in its feature column, so the
row attaining it satisfies the mask); the right partition, however, may be
empty, since the entropy of an empty partition is 0 rather than NaN and the
trivial split's gain 0 beats the initial `-inf`. -/
theorem C10_best_split_left_nonempty (X : List (List ℚ)) (y : List ℕ) (s : Split)
    (hlen : y.length = X.length) (hs : bestSplit X y = some s) :
    s.left_y ≠ [] := by
  have hmem : s ∈ candidates X y := by
    cases hc : candidates X y with
    | nil =>
      unfold bestSplit at hs
      rw [hc, pickBest_nil] at hs
      cases hs
    | cons c cs =>
      unfold bestSplit at hs
      rw [hc, pickBest_cons] at hs
      injection hs with hs'
      subst hs'
      exact hc ▸ firstMax_mem y cs c
  unfold candidates at hmem
  rcases List.mem_flatMap.mp hmem with ⟨f, _, hfc⟩
  unfold featureCandidates at hfc
  rcases List.mem_map.mp hfc with ⟨t, ht, hst⟩
  rcases List.mem_map.mp (mem_npUnique.mp ht) with ⟨row, hrow, hrt⟩
  rw [← hst]
  show leftLabels X y f t ≠ []
  intro hnil
  unfold leftLabels at hnil
  rw [List.map_eq_nil_iff, List.filter_eq_nil_iff] at hnil
  have hfst : (X.zip y).map Prod.fst = X :=
    List.map_fst_zip X y (le_of_eq hlen.symm)
  rw [← hfst] at hrow
  rcases List.mem_map.mp hrow with ⟨p, hp, hpr⟩
  apply hnil p hp
  have hle : p.1.getD f 0 ≤ t := by
    rw [hpr, hrt]
  simpa using hle

/-- C10, witness: the amended statement on `X = [[1],[1]]`, `y = [0,1]`. -/
theorem C10_witness : ((⟨0, 1, [0,1], []⟩ : Split)).left_y ≠ [] :=
  C10_best_split_left_nonempty [[1],[1]] [0,1] ⟨0, 1, [0,1], []⟩ (by decide) bestSplit_D

end DecisionTree
